import Mathlib

/-!
Shallow embedding of the chunked-transcription pipeline of `src/app.py`
(youtube-whisper).  Times and sizes are modelled as exact rationals (`ℚ`),
audio lengths in integral milliseconds (as `pydub`'s `len(audio)` reports),
and byte sizes as naturals.  The transcription backend is an opaque function
from an audio part to a fallible chunk result.
-/

namespace YoutubeWhisper

/-! ## Data model

A transcription result dict `{"text": ..., "segments": [...]}` as produced by
`transcribe_audio` / `merge_transcripts`, with each segment dict carrying
`start`, `end` and `text` keys.  `end` is a Lean keyword, so the field is
named `stop` here. -/

/-- One timed unit of transcribed speech: the `{"start": ..., "end": ...,
"text": ...}` dict of the verbose JSON response. -/
structure Segment where
  start : ℚ
  stop : ℚ
  text : String
deriving DecidableEq

/-- A transcription result: the `{"text": ..., "segments": [...]}` dict shape
used both for per-chunk results and for the merged transcript. -/
structure Transcript where
  text : String
  segments : List Segment
deriving DecidableEq

/-! ## merge_transcripts (src/app.py lines 447-469)

The Python loop mutates each segment dict in place (`segment["start"] +=
time_offset`, likewise for `"end"`), appends it to `all_segments`, and after
each chunk that has at least one segment reads the (already shifted) last
segment's `"end"` as the new `time_offset`.  The loop is embedded as a
structural recursion that threads the `time_offset` accumulator. -/

/-- Shift one segment by the running `time_offset` (the two `+=` updates in
the merge loop). -/
def shiftSegment (off : ℚ) (s : Segment) : Segment :=
  { s with start := s.start + off, stop := s.stop + off }

/-- The `time_offset` update after one chunk: unchanged when the chunk has no
segments, otherwise the shifted end of the chunk's last segment (the code
reads `chunk["segments"][-1]["end"]` after mutation, i.e. original end plus
the old offset). -/
def nextOffset (off : ℚ) (segs : List Segment) : ℚ :=
  match segs.getLast? with
  | none => off
  | some s => s.stop + off

/-- The segment-accumulating part of the merge loop, with the running
`time_offset` made explicit. -/
def mergeSegments (off : ℚ) : List Transcript → List Segment
  | [] => []
  | c :: cs => c.segments.map (shiftSegment off) ++ mergeSegments (nextOffset off c.segments) cs

/-- `merge_transcripts`: full text is the chunks' texts joined by a single
space (`" ".join(full_text)`); segments are the offset-shifted concatenation
starting from `time_offset = 0`. -/
def merge_transcripts (chunks : List Transcript) : Transcript :=
  { text := String.intercalate " " (chunks.map fun c => c.text),
    segments := mergeSegments 0 chunks }

/-- Modelled from the spec's §4.4 wording (for the refinement theorem of C1):
emit each segment with `start`/`end` increased by `time_offset`, and after a
chunk with at least one segment set `time_offset` to the *emitted* last
segment's end. -/
def mergeSpecSegments (off : ℚ) : List Transcript → List Segment
  | [] => []
  | c :: cs =>
    let emitted := c.segments.map fun s => Segment.mk (s.start + off) (s.stop + off) s.text
    emitted ++ mergeSpecSegments
      (match emitted.getLast? with
       | none => off
       | some e => e.stop) cs

/-! ## split_audio (src/app.py lines 379-397)

`total_duration = len(audio) / 1000` (seconds, from a millisecond length),
`num_chunks = math.ceil(total_duration / chunk_duration_seconds)`, and chunk
`i` is the slice `[i * M * 1000, min((i + 1) * M * 1000, len(audio)))` in
milliseconds.  The file I/O (export of each chunk) is not modelled; the
emitted spans are. -/

/-- Total duration in seconds of an audio of `lenMs` milliseconds. -/
def total_duration (lenMs : ℕ) : ℚ := (lenMs : ℚ) / 1000

/-- Number of chunks `split_audio` produces. -/
def num_chunks (lenMs : ℕ) (M : ℚ) : ℕ := ⌈total_duration lenMs / M⌉₊

/-- The millisecond span `[start_ms, end_ms)` of chunk `i`. -/
def chunk_span (lenMs : ℕ) (M : ℚ) (i : ℕ) : ℚ × ℚ :=
  ((i : ℚ) * M * 1000, min (((i : ℚ) + 1) * M * 1000) (lenMs : ℚ))

/-- `split_audio`: the ordered list of chunk spans (in milliseconds). -/
def split_audio (lenMs : ℕ) (M : ℚ) : List (ℚ × ℚ) :=
  (List.range (num_chunks lenMs M)).map (chunk_span lenMs M)

/-! ## transcribe_audio and transcribe_file (src/app.py lines 399-445, 522-571)

The OpenAI client is opaque: a function from the audio part handed to it
(the whole file, or chunk `i` of the split) to an `Except`-error or a chunk
result.  `transcribe_audio` is modelled together with the ordered list of
client calls it performs; the chunk loop stops at the first raised error,
exactly as a Python `for` loop aborted by an exception. -/

/-- Which piece of audio a transcription request is for. -/
inductive AudioPart where
  | whole
  | chunk (i : ℕ)
deriving DecidableEq

/-- The opaque transcription backend: may fail with an error message. -/
def TranscriptionClient : Type := AudioPart → Except String Transcript

/-- The chunk loop of `transcribe_audio`: call the client on each chunk in
order, collecting results; an exception aborts the loop.  Returns the
collected results (or the first error) together with the calls made. -/
def runChunks (client : TranscriptionClient) :
    List ℕ → Except String (List Transcript) × List AudioPart
  | [] => (Except.ok [], [])
  | i :: is =>
    match client (AudioPart.chunk i) with
    | Except.error e => (Except.error e, [AudioPart.chunk i])
    | Except.ok c =>
      let rest := runChunks client is
      (rest.1.map fun cs => c :: cs, AudioPart.chunk i :: rest.2)

/-- `MAX_FILE_SIZE_MB = 24` (src/app.py line 36). -/
def MAX_FILE_SIZE_MB : ℚ := 24

/-- `file_size_mb = os.path.getsize(audio_file) / (1024 * 1024)`. -/
def file_size_mb (sizeBytes : ℕ) : ℚ := (sizeBytes : ℚ) / (1024 * 1024)

/-- `transcribe_audio`: if the file is over `MAX_FILE_SIZE_MB`, split it
(with the default 600-second chunk duration) and transcribe chunk by chunk,
merging at the end; otherwise one direct call on the whole file.  The second
component records the client calls made, in order. -/
def transcribe_audio (sizeBytes lenMs : ℕ) (client : TranscriptionClient) :
    Except String Transcript × List AudioPart :=
  if file_size_mb sizeBytes > MAX_FILE_SIZE_MB then
    let r := runChunks client (List.range (num_chunks lenMs 600))
    (r.1.map merge_transcripts, r.2)
  else
    match client AudioPart.whole with
    | Except.error e => (Except.error e, [AudioPart.whole])
    | Except.ok c => (Except.ok { text := c.text, segments := c.segments }, [AudioPart.whole])

/-- The persisted artifacts of a successful run: `save_transcript` writes the
JSON and plain-text files, `generate_srt` the SRT file. -/
inductive SavedFile where
  | json
  | txt
  | srt
deriving DecidableEq

/-- The `/transcribe-file` route body (src/app.py lines 522-571), reduced to
the decision structure: `transcribe_audio` inside `try`; any raised error is
caught and returned with nothing written; on success the JSON, text and SRT
files are written. -/
def transcribe_file (sizeBytes lenMs : ℕ) (client : TranscriptionClient) :
    Except String Transcript × List SavedFile :=
  match (transcribe_audio sizeBytes lenMs client).1 with
  | Except.error e => (Except.error e, [])
  | Except.ok t => (Except.ok t, [SavedFile.json, SavedFile.txt, SavedFile.srt])

/-! ## format_srt_time (src/app.py lines 509-515)

Python's `%` on non-negative-divisor operands is `x - y * floor(x / y)`, and
`int()` truncates toward zero.  Fields are rendered through `f"{n:02d}"` /
`f"{n:03d}"`, i.e. zero-padded to a minimum width. -/

/-- Python `x % y` for rationals (`y`-signed remainder; for `y > 0` this is
the value in `[0, y)`). -/
def pymod (x y : ℚ) : ℚ := x - y * (⌊x / y⌋ : ℤ)

/-- Python `int()`: truncation toward zero. -/
def pytrunc (x : ℚ) : ℤ := if x < 0 then -⌊-x⌋ else ⌊x⌋

/-- Python `f"{n:0wd}"` on a rendered integer: left-pad with zeros to width
`w`. -/
def pad0 (w : ℕ) (s : String) : String :=
  String.mk (List.replicate (w - s.length) '0') ++ s

/-- `hours = int(seconds / 3600)`. -/
def srt_hours (seconds : ℚ) : ℤ := pytrunc (seconds / 3600)

/-- `minutes = int((seconds % 3600) / 60)`. -/
def srt_minutes (seconds : ℚ) : ℤ := pytrunc (pymod seconds 3600 / 60)

/-- `secs = seconds % 60` (real-valued). -/
def srt_secs (seconds : ℚ) : ℚ := pymod seconds 60

/-- The rendered whole-seconds field `int(secs)`. -/
def srt_secs_whole (seconds : ℚ) : ℤ := pytrunc (srt_secs seconds)

/-- `millis = int((secs - int(secs)) * 1000)`. -/
def srt_millis (seconds : ℚ) : ℤ :=
  pytrunc ((srt_secs seconds - (pytrunc (srt_secs seconds) : ℚ)) * 1000)

/-- `format_srt_time`: `f"{hours:02d}:{minutes:02d}:{int(secs):02d},{millis:03d}"`. -/
def format_srt_time (seconds : ℚ) : String :=
  pad0 2 (toString (srt_hours seconds)) ++ ":" ++
    pad0 2 (toString (srt_minutes seconds)) ++ ":" ++
    pad0 2 (toString (srt_secs_whole seconds)) ++ "," ++
    pad0 3 (toString (srt_millis seconds))

/-! ## generate_srt (src/app.py lines 490-507)

The loop `for i, segment in enumerate(transcript.get("segments", []))` writes
`f"{i+1}\n"`, the timestamp line, and the stripped text followed by a blank
line.  The file handle is modelled as the string written. -/

/-- The text written for the segment at 0-based enumeration index `idx`. -/
def srtBlock (idx : ℕ) (s : Segment) : String :=
  toString (idx + 1) ++ "\n" ++
    format_srt_time s.start ++ " --> " ++ format_srt_time s.stop ++ "\n" ++
    s.text.trim ++ "\n\n"

/-- The SRT writing loop, carrying the enumeration counter. -/
def srtBody : ℕ → List Segment → String
  | _, [] => ""
  | i, s :: rest => srtBlock i s ++ srtBody (i + 1) rest

/-- `generate_srt`: the full SRT text written for a transcript. -/
def generate_srt (t : Transcript) : String := srtBody 0 t.segments

/-- Ordering of segments by start time. -/
def startLE (a b : Segment) : Prop := a.start ≤ b.start

/-- The Segment data-model invariant of the spec: non-negative start and
`end ≥ start`. -/
def segWF (s : Segment) : Prop := 0 ≤ s.start ∧ s.start ≤ s.stop

/-! ## Helper lemmas -/

theorem string_foldl_append (l : List String) (a : String) :
    l.foldl (fun r s => r ++ s) a = a ++ l.foldl (fun r s => r ++ s) "" := by
  induction l generalizing a with
  | nil => simp
  | cons x l ih =>
    simp only [List.foldl_cons]
    rw [ih (a ++ x), ih ("" ++ x)]
    simp [String.append_assoc]

theorem string_join_cons (s : String) (l : List String) :
    String.join (s :: l) = s ++ String.join l := by
  simp only [String.join, List.foldl_cons]
  rw [string_foldl_append]
  simp

theorem shiftSegment_zero (s : Segment) : shiftSegment 0 s = s := by
  cases s
  simp [shiftSegment]

theorem mergeSegments_eq_spec (cs : List Transcript) :
    ∀ off : ℚ, mergeSegments off cs = mergeSpecSegments off cs := by
  induction cs with
  | nil => intro off; rfl
  | cons c cs ih =>
    intro off
    have hmap : (c.segments.map fun s => Segment.mk (s.start + off) (s.stop + off) s.text)
        = c.segments.map (shiftSegment off) := rfl
    simp only [mergeSegments, mergeSpecSegments, hmap, List.getLast?_map]
    cases hl : c.segments.getLast? with
    | none => simp [nextOffset, hl, ih]
    | some s => simp [nextOffset, hl, ih, shiftSegment]

theorem mem_start_le_getLast : ∀ (l : List Segment) (t : Segment),
    l.Pairwise startLE → l.getLast? = some t → ∀ s ∈ l, s.start ≤ t.start := by
  intro l
  induction l with
  | nil => intro t _ hl; simp at hl
  | cons a l ih =>
    intro t hp hl s hs
    cases hlast : l.getLast? with
    | none =>
      have hnil : l = [] := List.getLast?_eq_none_iff.mp hlast
      subst hnil
      simp only [List.getLast?_singleton, Option.some.injEq] at hl
      simp only [List.mem_singleton] at hs
      subst hl
      subst hs
      exact le_refl _
    | some u =>
      have hlne : l ≠ [] := by
        intro hnil
        rw [hnil] at hlast
        simp at hlast
      have hl3 : (a :: l).getLast? = l.getLast? := by
        cases l with
        | nil => exact absurd rfl hlne
        | cons b l2 => exact List.getLast?_cons_cons
      rw [hl3, hlast] at hl
      cases hl
      have ht_mem : t ∈ l := by
        rw [List.getLast?_eq_getLast l hlne, Option.some.injEq] at hlast
        rw [← hlast]
        exact List.getLast_mem hlne
      rcases List.mem_cons.mp hs with h | h
      · subst h
        exact (List.pairwise_cons.mp hp).1 t ht_mem
      · exact ih t (List.pairwise_cons.mp hp).2 hlast s h

theorem mem_of_getLast?_eq {l : List Segment} {t : Segment} (hl : l.getLast? = some t) :
    t ∈ l := by
  have hne : l ≠ [] := by
    intro hnil
    rw [hnil] at hl
    simp at hl
  rw [List.getLast?_eq_getLast l hne, Option.some.injEq] at hl
  rw [← hl]
  exact List.getLast_mem hne

theorem nextOffset_ge (off : ℚ) (segs : List Segment) (hwf : ∀ s ∈ segs, segWF s) :
    off ≤ nextOffset off segs := by
  cases hl : segs.getLast? with
  | none => simp [nextOffset, hl]
  | some t =>
    simp only [nextOffset, hl]
    have := hwf t (mem_of_getLast?_eq hl)
    rw [segWF] at this
    linarith [this.1, this.2]

theorem mergeSegments_sorted (cs : List Transcript) :
    ∀ off : ℚ,
      (∀ c ∈ cs, c.segments.Pairwise startLE ∧ ∀ s ∈ c.segments, segWF s) →
      (mergeSegments off cs).Pairwise startLE ∧
        ∀ s ∈ mergeSegments off cs, off ≤ s.start := by
  induction cs with
  | nil =>
    intro off _
    simp [mergeSegments]
  | cons c cs ih =>
    intro off hcs
    have hc := hcs c (List.mem_cons_self c cs)
    have hcs2 : ∀ c2 ∈ cs, c2.segments.Pairwise startLE ∧ ∀ s ∈ c2.segments, segWF s :=
      fun c2 h2 => hcs c2 (List.mem_cons_of_mem c h2)
    have hIH := ih (nextOffset off c.segments) hcs2
    have hE_pair : (c.segments.map (shiftSegment off)).Pairwise startLE := by
      rw [List.pairwise_map]
      refine hc.1.imp ?_
      intro a b hab
      show (shiftSegment off a).start ≤ (shiftSegment off b).start
      simp only [shiftSegment]
      exact add_le_add_right hab off
    have hE_ge : ∀ e ∈ c.segments.map (shiftSegment off), off ≤ e.start := by
      intro e he
      obtain ⟨s, hs_mem, hs_eq⟩ := List.mem_map.mp he
      have hwf := (hc.2 s hs_mem).1
      rw [← hs_eq]
      simp only [shiftSegment]
      linarith
    have hE_le : ∀ e ∈ c.segments.map (shiftSegment off),
        e.start ≤ nextOffset off c.segments := by
      intro e he
      obtain ⟨s, hs_mem, hs_eq⟩ := List.mem_map.mp he
      rw [nextOffset]
      cases hl : c.segments.getLast? with
      | none =>
        exact absurd hs_mem (by simp [List.getLast?_eq_none_iff.mp hl])
      | some t =>
        have hst := mem_start_le_getLast c.segments t hc.1 hl s hs_mem
        have htwf := hc.2 t (mem_of_getLast?_eq hl)
        rw [segWF] at htwf
        rw [← hs_eq]
        simp only [shiftSegment]
        linarith [htwf.2]
    constructor
    · rw [mergeSegments]
      refine List.pairwise_append.mpr ⟨hE_pair, hIH.1, ?_⟩
      intro a ha b hb
      exact le_trans (hE_le a ha) (hIH.2 b hb)
    · intro s hs
      rw [mergeSegments] at hs
      rcases List.mem_append.mp hs with h | h
      · exact hE_ge s h
      · exact le_trans (nextOffset_ge off c.segments hc.2) (hIH.2 s h)

theorem chunk_start_lt (lenMs : ℕ) (M : ℚ) (hM : 0 < M) {i : ℕ}
    (hi : i < num_chunks lenMs M) : (i : ℚ) * M * 1000 < lenMs := by
  have h1 : (i : ℚ) < total_duration lenMs / M := Nat.lt_ceil.mp hi
  rw [total_duration, div_div] at h1
  have h2 : (0 : ℚ) < 1000 * M := by positivity
  have h3 := (lt_div_iff₀ h2).mp h1
  linarith

theorem len_le_chunks_end (lenMs : ℕ) (M : ℚ) (hM : 0 < M) :
    (lenMs : ℚ) ≤ (num_chunks lenMs M : ℚ) * M * 1000 := by
  have h1 : total_duration lenMs / M ≤ (num_chunks lenMs M : ℚ) := Nat.le_ceil _
  rw [total_duration, div_div] at h1
  have h2 : (0 : ℚ) < 1000 * M := by positivity
  have h3 := (div_le_iff₀ h2).mp h1
  linarith

theorem num_chunks_pos (lenMs : ℕ) (M : ℚ) (hlen : 0 < lenMs) (hM : 0 < M) :
    1 ≤ num_chunks lenMs M := by
  rw [num_chunks]
  refine Nat.ceil_pos.mpr ?_
  have : (0 : ℚ) < lenMs := by exact_mod_cast hlen
  rw [total_duration]
  positivity

theorem split_sum_ms (lenMs : ℕ) (M : ℚ) (hM : 0 < M) :
    ∀ m, m ≤ num_chunks lenMs M →
      (((List.range m).map fun i => (chunk_span lenMs M i).2 - (chunk_span lenMs M i).1).sum)
        = min ((m : ℚ) * M * 1000) lenMs := by
  intro m
  induction m with
  | zero =>
    intro _
    have h0 : (0 : ℚ) ≤ (lenMs : ℚ) := by positivity
    rw [show ((0 : ℕ) : ℚ) * M * 1000 = 0 by push_cast; ring, min_eq_left h0]
    simp
  | succ m ih =>
    intro hm
    rw [List.range_succ, List.map_append, List.sum_append, ih (Nat.le_of_succ_le hm)]
    have hmlt : (m : ℚ) * M * 1000 < lenMs :=
      chunk_start_lt lenMs M hM (lt_of_lt_of_le (Nat.lt_succ_self m) hm)
    rw [min_eq_left (le_of_lt hmlt)]
    simp only [List.map_cons, List.map_nil, List.sum_cons, List.sum_nil, chunk_span]
    push_cast
    ring

theorem list_sum_div (l : List ℚ) (c : ℚ) : (l.map fun x => x / c).sum = l.sum / c := by
  induction l with
  | nil => simp
  | cons x l ih => simp [ih, add_div]

theorem runChunks_error_of_mem (client : TranscriptionClient) :
    ∀ (is : List ℕ) (i : ℕ), i ∈ is → (∃ e, client (AudioPart.chunk i) = Except.error e) →
      ∃ e2, (runChunks client is).1 = Except.error e2 := by
  intro is
  induction is with
  | nil => intro i h; simp at h
  | cons j is ih =>
    intro i hmem he
    obtain ⟨e, he⟩ := he
    rcases List.mem_cons.mp hmem with h | h
    · subst h
      exact ⟨e, by simp [runChunks, he]⟩
    · cases hj : client (AudioPart.chunk j) with
      | error e2 => exact ⟨e2, by simp [runChunks, hj]⟩
      | ok c =>
        obtain ⟨e3, h3⟩ := ih i h ⟨e, he⟩
        exact ⟨e3, by simp [runChunks, hj, h3, Except.map]⟩

theorem runChunks_calls_of_ok (client : TranscriptionClient) :
    ∀ is : List ℕ, (∀ i ∈ is, ∃ c, client (AudioPart.chunk i) = Except.ok c) →
      (runChunks client is).2 = is.map AudioPart.chunk := by
  intro is
  induction is with
  | nil => intro _; rfl
  | cons j is ih =>
    intro h
    obtain ⟨c, hc⟩ := h j (List.mem_cons_self j is)
    simp only [runChunks, hc, List.map_cons]
    rw [ih fun i hi => h i (List.mem_cons_of_mem j hi)]

theorem size_over_threshold_iff (sizeBytes : ℕ) :
    file_size_mb sizeBytes > MAX_FILE_SIZE_MB ↔ 25165824 < sizeBytes := by
  rw [file_size_mb, MAX_FILE_SIZE_MB, gt_iff_lt,
    lt_div_iff₀ (by norm_num : (0 : ℚ) < 1024 * 1024)]
  constructor
  · intro h
    have : (25165824 : ℚ) < sizeBytes := by linarith
    exact_mod_cast this
  · intro h
    have : (25165824 : ℚ) < sizeBytes := by exact_mod_cast h
    linarith

theorem pymod_eq (x y : ℚ) (hy : y ≠ 0) : pymod x y = y * Int.fract (x / y) := by
  rw [pymod, Int.fract, mul_sub, mul_div_cancel₀ x hy]

theorem pymod_nonneg (x : ℚ) {y : ℚ} (hy : 0 < y) : 0 ≤ pymod x y := by
  rw [pymod_eq x y (ne_of_gt hy)]
  exact mul_nonneg hy.le (Int.fract_nonneg _)

theorem pymod_lt (x : ℚ) {y : ℚ} (hy : 0 < y) : pymod x y < y := by
  rw [pymod_eq x y (ne_of_gt hy)]
  calc y * Int.fract (x / y) < y * 1 := by
        exact mul_lt_mul_of_pos_left (Int.fract_lt_one _) hy
    _ = y := mul_one y

theorem pytrunc_eq_floor {x : ℚ} (h : 0 ≤ x) : pytrunc x = ⌊x⌋ :=
  if_neg (not_lt.mpr h)

set_option maxRecDepth 10000 in
theorem pad2_digits : ∀ n : ℕ, n < 60 →
    ((pad0 2 (toString (n : ℤ))).length = 2 ∧
      (pad0 2 (toString (n : ℤ))).data.all Char.isDigit = true) := by decide

set_option maxRecDepth 10000 in
theorem pad3_digits : ∀ n : ℕ, n < 1000 →
    ((pad0 3 (toString (n : ℤ))).length = 3 ∧
      (pad0 3 (toString (n : ℤ))).data.all Char.isDigit = true) := by decide

theorem srtBody_enumFrom (segs : List Segment) :
    ∀ i : ℕ, srtBody i segs = String.join ((segs.enumFrom i).map fun p => srtBlock p.1 p.2) := by
  induction segs with
  | nil => intro i; rfl
  | cons s rest ih =>
    intro i
    rw [srtBody, List.enumFrom_cons, List.map_cons, string_join_cons, ih (i + 1)]

/-! ## Claim theorems -/

/-- C1: for every non-empty ordered chunk sequence, `merge_transcripts`
produces the chunks' texts joined by a single space as `full_text`, and the
concatenation of the per-chunk segments shifted by the running time offset,
where after each chunk with at least one segment the offset becomes the
shifted end of that chunk's last segment — exactly the spec's fold
(`mergeSpecSegments`); in particular chunk A with segments [{0,5},{5,9}] and
chunk B with segment [{0,4}] merge to [{0,5},{5,9},{9,13}]. -/
theorem merge_concatenates_and_shifts :
    (∀ chunks : List Transcript, chunks ≠ [] →
      merge_transcripts chunks =
        { text := String.intercalate " " (chunks.map fun c => c.text),
          segments := mergeSpecSegments 0 chunks }) ∧
    merge_transcripts
        ([{ text := "a b", segments := [⟨0, 5, "a"⟩, ⟨5, 9, "b"⟩] },
          { text := "c", segments := [⟨0, 4, "c"⟩] }] : List Transcript) =
      { text := "a b c",
        segments := [⟨0, 5, "a"⟩, ⟨5, 9, "b"⟩, ⟨9, 13, "c"⟩] } := by
  constructor
  · intro chunks _
    rw [merge_transcripts, mergeSegments_eq_spec]
  · simp [merge_transcripts, mergeSegments, nextOffset, shiftSegment]
    norm_num
    rfl

/-- Witness for C1 at the concrete two-chunk input of the spec's example. -/
theorem merge_concatenates_and_shifts_witness :
    merge_transcripts
        ([{ text := "a b", segments := [⟨0, 5, "a"⟩, ⟨5, 9, "b"⟩] },
          { text := "c", segments := [⟨0, 4, "c"⟩] }] : List Transcript) =
      { text := String.intercalate " "
          (([{ text := "a b", segments := [⟨0, 5, "a"⟩, ⟨5, 9, "b"⟩] },
             { text := "c", segments := [⟨0, 4, "c"⟩] }] : List Transcript).map fun c => c.text),
        segments := mergeSpecSegments 0
          ([{ text := "a b", segments := [⟨0, 5, "a"⟩, ⟨5, 9, "b"⟩] },
            { text := "c", segments := [⟨0, 4, "c"⟩] }] : List Transcript) } :=
  merge_concatenates_and_shifts.1 _ (by simp)

/-- C4: if every chunk's segments are clip-locally non-decreasing in start
time and well-formed per the Segment data model (start ≥ 0, end ≥ start),
the merged segments are globally non-decreasing in start time, and every
merged start is ≥ 0 — timestamps are shifted by the accumulated offset at
chunk boundaries, never reset to zero. -/
theorem merged_segments_monotone (chunks : List Transcript)
    (h : ∀ c ∈ chunks, c.segments.Pairwise startLE ∧ ∀ s ∈ c.segments, segWF s) :
    ((merge_transcripts chunks).segments).Pairwise startLE ∧
      ∀ s ∈ (merge_transcripts chunks).segments, 0 ≤ s.start :=
  mergeSegments_sorted chunks 0 h

/-- Witness for C4 at the concrete two-chunk example. -/
theorem merged_segments_monotone_witness :
    ((merge_transcripts
        ([{ text := "a b", segments := [⟨0, 5, "a"⟩, ⟨5, 9, "b"⟩] },
          { text := "c", segments := [⟨0, 4, "c"⟩] }] : List Transcript)).segments).Pairwise
        startLE ∧
      ∀ s ∈ (merge_transcripts
        ([{ text := "a b", segments := [⟨0, 5, "a"⟩, ⟨5, 9, "b"⟩] },
          { text := "c", segments := [⟨0, 4, "c"⟩] }] : List Transcript)).segments,
        0 ≤ s.start :=
  merged_segments_monotone _ (by norm_num [startLE, segWF, List.pairwise_cons])

/-- C5: a chunk that produced zero segments leaves the running `time_offset`
unchanged: the next chunks are merged at exactly the offset that preceded
the empty chunk. -/
theorem empty_chunk_keeps_offset (off : ℚ) (c : Transcript) (cs : List Transcript)
    (h : c.segments = []) :
    mergeSegments off (c :: cs) = mergeSegments off cs := by
  simp [mergeSegments, h, nextOffset]

/-- Witness for C5: an empty chunk before a one-segment chunk, at offset 9. -/
theorem empty_chunk_keeps_offset_witness :
    mergeSegments 9 ([{ text := "", segments := [] },
        { text := "c", segments := [⟨0, 4, "c"⟩] }] : List Transcript)
      = mergeSegments 9 ([{ text := "c", segments := [⟨0, 4, "c"⟩] }] : List Transcript) :=
  empty_chunk_keeps_offset 9 _ _ rfl

/-- C9: merging a single chunk is the identity: the chunk's text is returned
unchanged and its segments are shifted by the initial offset 0, hence
numerically unchanged. -/
theorem merge_single_chunk_identity (c : Transcript) :
    merge_transcripts [c] = { text := c.text, segments := c.segments } := by
  simp only [merge_transcripts, Transcript.mk.injEq]
  constructor
  · simp [String.intercalate, String.intercalate.go]
  · have hid : List.map (shiftSegment 0) c.segments = c.segments := by
      induction c.segments with
      | nil => rfl
      | cons a l ih => simp [shiftSegment_zero, ih]
    simp [mergeSegments, hid]

/-- C2: for a positive total length and positive max chunk duration,
`split_audio` emits exactly `ceil(D / M)` spans; each span is non-empty,
consecutive spans are contiguous (hence non-overlapping), starts are
strictly ascending, the spans cover `[0, lenMs)` exactly, the durations sum
to the total duration `D` in seconds, and every span except possibly the
last lasts exactly `M` seconds. -/
theorem split_audio_partition (lenMs : ℕ) (M : ℚ) (hlen : 0 < lenMs) (hM : 0 < M) :
    (split_audio lenMs M).length = ⌈total_duration lenMs / M⌉₊ ∧
    split_audio lenMs M = (List.range (num_chunks lenMs M)).map (chunk_span lenMs M) ∧
    (∀ i, i < num_chunks lenMs M → (chunk_span lenMs M i).1 < (chunk_span lenMs M i).2) ∧
    (∀ i, i + 1 < num_chunks lenMs M →
      (chunk_span lenMs M i).2 = (chunk_span lenMs M (i + 1)).1) ∧
    (∀ i j, i < j → j < num_chunks lenMs M →
      (chunk_span lenMs M i).1 < (chunk_span lenMs M j).1) ∧
    (chunk_span lenMs M 0).1 = 0 ∧
    (chunk_span lenMs M (num_chunks lenMs M - 1)).2 = lenMs ∧
    ((split_audio lenMs M).map fun p => (p.2 - p.1) / 1000).sum = total_duration lenMs ∧
    (∀ i, i + 1 < num_chunks lenMs M →
      ((chunk_span lenMs M i).2 - (chunk_span lenMs M i).1) / 1000 = M) := by
  refine ⟨?_, rfl, ?_, ?_, ?_, ?_, ?_, ?_, ?_⟩
  · simp [split_audio, num_chunks]
  · intro i hi
    have h := chunk_start_lt lenMs M hM hi
    simp only [chunk_span]
    rw [lt_min_iff]
    exact ⟨by nlinarith, h⟩
  · intro i hi
    have h := chunk_start_lt lenMs M hM hi
    push_cast at h
    simp only [chunk_span]
    rw [min_eq_left (by linarith)]
    push_cast
    ring
  · intro i j hij hj
    simp only [chunk_span]
    have h1 : (i : ℚ) < j := by exact_mod_cast hij
    have h2 : (0 : ℚ) < M * 1000 := by positivity
    calc (i : ℚ) * M * 1000 = (i : ℚ) * (M * 1000) := by ring
      _ < (j : ℚ) * (M * 1000) := mul_lt_mul_of_pos_right h1 h2
      _ = (j : ℚ) * M * 1000 := by ring
  · simp [chunk_span]
  · have hn1 := num_chunks_pos lenMs M hlen hM
    simp only [chunk_span]
    have hcast : ((num_chunks lenMs M - 1 : ℕ) : ℚ) + 1 = (num_chunks lenMs M : ℚ) := by
      have h := Nat.sub_add_cancel hn1
      exact_mod_cast congrArg (fun k : ℕ => (k : ℚ)) h
    rw [hcast, min_eq_right (len_le_chunks_end lenMs M hM)]
  · have heq : ((split_audio lenMs M).map fun p => (p.2 - p.1) / 1000)
        = (((List.range (num_chunks lenMs M)).map fun i =>
            (chunk_span lenMs M i).2 - (chunk_span lenMs M i).1).map fun x => x / 1000) := by
      rw [split_audio, List.map_map, List.map_map]
      rfl
    rw [heq, list_sum_div, split_sum_ms lenMs M hM _ (le_refl _),
      min_eq_right (len_le_chunks_end lenMs M hM), total_duration]
  · intro i hi
    have h := chunk_start_lt lenMs M hM hi
    push_cast at h
    simp only [chunk_span]
    rw [min_eq_left (by linarith)]
    field_simp
    ring

/-- Witness for C2 at the spec's own example, D = 1500 s and M = 600 s. -/
theorem split_audio_partition_witness :
    (split_audio 1500000 600).length = ⌈total_duration 1500000 / 600⌉₊ ∧
      (chunk_span 1500000 600 0).1 = 0 ∧
      (chunk_span 1500000 600 (num_chunks 1500000 600 - 1)).2 = 1500000 := by
  obtain ⟨h1, _, _, _, _, h6, h7, _, _⟩ :=
    split_audio_partition 1500000 600 (by norm_num) (by norm_num)
  exact ⟨h1, h6, h7⟩

/-- C3: when a file over the 24 MB threshold is transcribed in chunks and
any chunk's transcription call fails, the whole run returns a failure (the
raised error propagates out of `transcribe_audio`) and writes no transcript
JSON, text or SRT file — even if earlier chunks succeeded. -/
theorem chunk_failure_fails_run (sizeBytes lenMs : ℕ) (client : TranscriptionClient)
    (hsize : 25165824 < sizeBytes) (i : ℕ) (hi : i < num_chunks lenMs 600)
    (e : String) (he : client (AudioPart.chunk i) = Except.error e) :
    (∃ e2, (transcribe_file sizeBytes lenMs client).1 = Except.error e2) ∧
      (transcribe_file sizeBytes lenMs client).2 = [] := by
  have hmb : file_size_mb sizeBytes > MAX_FILE_SIZE_MB :=
    (size_over_threshold_iff sizeBytes).mpr hsize
  obtain ⟨e3, h3⟩ := runChunks_error_of_mem client (List.range (num_chunks lenMs 600)) i
    (List.mem_range.mpr hi) ⟨e, he⟩
  have haudio : (transcribe_audio sizeBytes lenMs client).1 = Except.error e3 := by
    simp [transcribe_audio, if_pos hmb, h3, Except.map]
  refine ⟨⟨e3, ?_⟩, ?_⟩
  · simp [transcribe_file, haudio]
  · simp [transcribe_file, haudio]

/-- Witness for C3: a 26 MB, 700 s file split into 2 chunks, whose first
chunk succeeds and second fails. -/
theorem chunk_failure_fails_run_witness :
    (∃ e2, (transcribe_file 27262976 700000
        (fun p => match p with
          | AudioPart.chunk 1 => Except.error "boom"
          | _ => Except.ok { text := "ok", segments := [] })).1 = Except.error e2) ∧
      (transcribe_file 27262976 700000
        (fun p => match p with
          | AudioPart.chunk 1 => Except.error "boom"
          | _ => Except.ok { text := "ok", segments := [] })).2 = [] :=
  chunk_failure_fails_run 27262976 700000 _ (by norm_num) 1
    (by
      have h2 : num_chunks 700000 600 = 2 := by
        norm_num [num_chunks, total_duration]
        rw [Nat.ceil_eq_iff] <;> norm_num
      rw [h2]
      norm_num)
    "boom" rfl

/-- C6: the direct-vs-chunked decision is by byte size alone against the
24 MB threshold: at or under the threshold the client is called exactly once,
on the whole file, with no split; over it, and with every chunk transcription
succeeding, the client is called exactly once per split chunk, in order. -/
theorem size_threshold_decides_path (sizeBytes lenMs : ℕ) (client : TranscriptionClient) :
    (sizeBytes ≤ 25165824 →
      (transcribe_audio sizeBytes lenMs client).2 = [AudioPart.whole]) ∧
    (25165824 < sizeBytes →
      (∀ i, i < num_chunks lenMs 600 → ∃ c, client (AudioPart.chunk i) = Except.ok c) →
      (transcribe_audio sizeBytes lenMs client).2
        = (List.range (num_chunks lenMs 600)).map AudioPart.chunk) := by
  constructor
  · intro h
    have hmb : ¬ (file_size_mb sizeBytes > MAX_FILE_SIZE_MB) := by
      rw [size_over_threshold_iff]
      omega
    cases hw : client AudioPart.whole with
    | error e => simp [transcribe_audio, if_neg hmb, hw]
    | ok c => simp [transcribe_audio, if_neg hmb, hw]
  · intro h hok
    have hmb : file_size_mb sizeBytes > MAX_FILE_SIZE_MB :=
      (size_over_threshold_iff sizeBytes).mpr h
    have hcalls := runChunks_calls_of_ok client (List.range (num_chunks lenMs 600))
      (fun i hi => hok i (List.mem_range.mp hi))
    simp [transcribe_audio, if_pos hmb, hcalls]

/-- Witness for C6: a small file goes direct (one whole-file call); a 26 MB
file is chunked (one call per chunk) when every chunk succeeds. -/
theorem size_threshold_decides_path_witness :
    (transcribe_audio 1000 30000
        (fun _ => Except.ok { text := "ok", segments := [] })).2 = [AudioPart.whole] ∧
    (transcribe_audio 27262976 700000
        (fun _ => Except.ok { text := "ok", segments := [] })).2
      = (List.range (num_chunks 700000 600)).map AudioPart.chunk :=
  ⟨(size_threshold_decides_path 1000 30000 _).1 (by norm_num),
   (size_threshold_decides_path 27262976 700000 _).2 (by norm_num)
     (fun i _ => ⟨_, rfl⟩)⟩

/-- C7: the rendered SRT text is, for each segment in order at 1-based index
i, the index line, the `start --> end` timestamp line, the
whitespace-trimmed segment text, and a blank separator line; a transcript
with zero segments renders to the empty string rather than an error. -/
theorem generate_srt_structure :
    (∀ t : Transcript, generate_srt t =
      String.join (t.segments.enum.map fun p =>
        toString (p.1 + 1) ++ "\n" ++
          format_srt_time p.2.start ++ " --> " ++ format_srt_time p.2.stop ++ "\n" ++
          p.2.text.trim ++ "\n\n")) ∧
    (∀ txt : String, generate_srt { text := txt, segments := [] } = "") := by
  constructor
  · intro t
    rw [generate_srt, srtBody_enumFrom t.segments 0]
    rfl
  · intro txt
    rfl

/-- C8: for every non-negative number of seconds (exact rational), the
timestamp is rendered as zero-padded `HH:MM:SS,mmm` with hours = ⌊s/3600⌋,
minutes = ⌊(s mod 3600)/60⌋, whole seconds = ⌊s mod 60⌋ and
millis = ⌊frac(s mod 60)·1000⌋, all by truncation with no rounding carry; in
particular format(0) = "00:00:00,000" and, in exact rational arithmetic,
format(3725.4) = "01:02:05,400". -/
theorem format_srt_time_fields :
    (∀ q : ℚ, 0 ≤ q →
      format_srt_time q =
        pad0 2 (toString ⌊q / 3600⌋) ++ ":" ++
          pad0 2 (toString ⌊pymod q 3600 / 60⌋) ++ ":" ++
          pad0 2 (toString ⌊pymod q 60⌋) ++ "," ++
          pad0 3 (toString ⌊(pymod q 60 - (⌊pymod q 60⌋ : ℚ)) * 1000⌋)) ∧
    format_srt_time 0 = "00:00:00,000" ∧
    format_srt_time (3725.4 : ℚ) = "01:02:05,400" := by
  refine ⟨?_, ?_, ?_⟩
  · intro q hq
    have h3600 : (0 : ℚ) < 3600 := by norm_num
    have h60 : (0 : ℚ) < 60 := by norm_num
    have h1 : 0 ≤ q / 3600 := by positivity
    have h2 : 0 ≤ pymod q 3600 / 60 := div_nonneg (pymod_nonneg q h3600) (by norm_num)
    have h3 : 0 ≤ pymod q 60 := pymod_nonneg q h60
    have h4 : 0 ≤ (pymod q 60 - (⌊pymod q 60⌋ : ℚ)) * 1000 := by
      have hf := Int.fract_nonneg (pymod q 60)
      rw [Int.fract] at hf
      nlinarith
    rw [format_srt_time, srt_hours, srt_minutes, srt_secs_whole, srt_millis, srt_secs,
      pytrunc_eq_floor h1, pytrunc_eq_floor h2, pytrunc_eq_floor h3, pytrunc_eq_floor h4]
  · norm_num [format_srt_time, srt_hours, srt_minutes, srt_secs_whole, srt_millis,
      srt_secs, pytrunc, pymod]
    rfl
  · norm_num [format_srt_time, srt_hours, srt_minutes, srt_secs_whole, srt_millis,
      srt_secs, pytrunc, pymod]
    rfl

/-- Witness for C8 at the spec's example input 3725.4 seconds. -/
theorem format_srt_time_fields_witness :
    format_srt_time (3725.4 : ℚ) =
      pad0 2 (toString ⌊(3725.4 : ℚ) / 3600⌋) ++ ":" ++
        pad0 2 (toString ⌊pymod (3725.4 : ℚ) 3600 / 60⌋) ++ ":" ++
        pad0 2 (toString ⌊pymod (3725.4 : ℚ) 60⌋) ++ "," ++
        pad0 3 (toString ⌊(pymod (3725.4 : ℚ) 60 - (⌊pymod (3725.4 : ℚ) 60⌋ : ℚ)) * 1000⌋) :=
  format_srt_time_fields.1 (3725.4 : ℚ) (by norm_num)

/-- C10: for every non-negative input the rendered timestamp is well-formed:
it decomposes as hours, minutes, seconds and milliseconds fields with the
minutes and seconds values in 0–59 rendered as exactly two digits, the
milliseconds value in 0–999 rendered as exactly three digits, and a
non-negative hours value — the pattern digits:DD:DD,DDD however large the
input. -/
theorem format_srt_time_wellformed :
    ∀ q : ℚ, 0 ≤ q →
      (format_srt_time q =
        pad0 2 (toString (srt_hours q)) ++ ":" ++ pad0 2 (toString (srt_minutes q)) ++ ":" ++
          pad0 2 (toString (srt_secs_whole q)) ++ "," ++ pad0 3 (toString (srt_millis q))) ∧
      0 ≤ srt_hours q ∧
      (0 ≤ srt_minutes q ∧ srt_minutes q ≤ 59) ∧
      (0 ≤ srt_secs_whole q ∧ srt_secs_whole q ≤ 59) ∧
      (0 ≤ srt_millis q ∧ srt_millis q ≤ 999) ∧
      (pad0 2 (toString (srt_minutes q))).length = 2 ∧
      (pad0 2 (toString (srt_minutes q))).data.all Char.isDigit = true ∧
      (pad0 2 (toString (srt_secs_whole q))).length = 2 ∧
      (pad0 2 (toString (srt_secs_whole q))).data.all Char.isDigit = true ∧
      (pad0 3 (toString (srt_millis q))).length = 3 ∧
      (pad0 3 (toString (srt_millis q))).data.all Char.isDigit = true := by
  intro q hq
  have h3600 : (0 : ℚ) < 3600 := by norm_num
  have h60 : (0 : ℚ) < 60 := by norm_num
  have hh : 0 ≤ srt_hours q := by
    rw [srt_hours, pytrunc_eq_floor (by positivity)]
    exact Int.floor_nonneg.mpr (by positivity)
  have hm_pre : 0 ≤ pymod q 3600 / 60 := div_nonneg (pymod_nonneg q h3600) (by norm_num)
  have hm0 : 0 ≤ srt_minutes q := by
    rw [srt_minutes, pytrunc_eq_floor hm_pre]
    exact Int.floor_nonneg.mpr hm_pre
  have hm1 : srt_minutes q ≤ 59 := by
    rw [srt_minutes, pytrunc_eq_floor hm_pre]
    have hlt : pymod q 3600 / 60 < ((60 : ℤ) : ℚ) := by
      rw [div_lt_iff₀ h60]
      push_cast
      linarith [pymod_lt q h3600]
    have h2 := Int.floor_lt.mpr hlt
    omega
  have hs_pre : 0 ≤ pymod q 60 := pymod_nonneg q h60
  have hs0 : 0 ≤ srt_secs_whole q := by
    rw [srt_secs_whole, srt_secs, pytrunc_eq_floor hs_pre]
    exact Int.floor_nonneg.mpr hs_pre
  have hs1 : srt_secs_whole q ≤ 59 := by
    rw [srt_secs_whole, srt_secs, pytrunc_eq_floor hs_pre]
    have hlt : pymod q 60 < ((60 : ℤ) : ℚ) := by
      push_cast
      exact pymod_lt q h60
    have h2 := Int.floor_lt.mpr hlt
    omega
  have hfr0 : 0 ≤ pymod q 60 - (⌊pymod q 60⌋ : ℚ) := by
    have hf := Int.fract_nonneg (pymod q 60)
    rwa [Int.fract] at hf
  have hfr1 : pymod q 60 - (⌊pymod q 60⌋ : ℚ) < 1 := by
    have hf := Int.fract_lt_one (pymod q 60)
    rwa [Int.fract] at hf
  have hms_eq : srt_millis q = ⌊(pymod q 60 - (⌊pymod q 60⌋ : ℚ)) * 1000⌋ := by
    rw [srt_millis, srt_secs, pytrunc_eq_floor hs_pre, pytrunc_eq_floor (by nlinarith)]
  have hms0 : 0 ≤ srt_millis q := by
    rw [hms_eq]
    exact Int.floor_nonneg.mpr (by nlinarith)
  have hms1 : srt_millis q ≤ 999 := by
    rw [hms_eq]
    have hlt : (pymod q 60 - (⌊pymod q 60⌋ : ℚ)) * 1000 < ((1000 : ℤ) : ℚ) := by
      push_cast
      nlinarith
    have h2 := Int.floor_lt.mpr hlt
    omega
  have hm_digits := pad2_digits (srt_minutes q).toNat (by omega)
  rw [Int.toNat_of_nonneg hm0] at hm_digits
  have hs_digits := pad2_digits (srt_secs_whole q).toNat (by omega)
  rw [Int.toNat_of_nonneg hs0] at hs_digits
  have hms_digits := pad3_digits (srt_millis q).toNat (by omega)
  rw [Int.toNat_of_nonneg hms0] at hms_digits
  exact ⟨rfl, hh, ⟨hm0, hm1⟩, ⟨hs0, hs1⟩, ⟨hms0, hms1⟩, hm_digits.1, hm_digits.2,
    hs_digits.1, hs_digits.2, hms_digits.1, hms_digits.2⟩

/-- Witness for C10 at the concrete input 3725.4 seconds. -/
theorem format_srt_time_wellformed_witness :
    0 ≤ srt_hours (3725.4 : ℚ) ∧
      (0 ≤ srt_minutes (3725.4 : ℚ) ∧ srt_minutes (3725.4 : ℚ) ≤ 59) ∧
      (0 ≤ srt_millis (3725.4 : ℚ) ∧ srt_millis (3725.4 : ℚ) ≤ 999) := by
  obtain ⟨_, hh, hm, _, hms, _⟩ := format_srt_time_wellformed (3725.4 : ℚ) (by norm_num)
  exact ⟨hh, hm, hms⟩

end YoutubeWhisper
